import Mathlib

/-!
Shallow embedding of the idempotent transaction store of this repository
(`createTransaction`, the per-key lock registry, the TTL cache sweeper,
`listTransactions` with cursor pagination, `parseLimit`,
`encodeCursor`/`decodeCursor`, `validateTransactionRequest`), together with
proofs of the specification claims about it.

Modelling conventions:
* Go `time.Time` is modelled as `Nat` (nanoseconds since the epoch); the Go
  zero time corresponds to `0`.  Durations are modelled as `Int`.
* Go `float64` is modelled by `GoFloat` below: the amounts in this program are
  only ever compared (to zero, and for equality through the fingerprint), never
  computed with, so an inductive with a finite/NaN/±Inf split captures exactly
  the comparisons the source performs.
* Go maps are modelled as association lists without duplicate keys; `lookupA`,
  `insertA` and `eraseA` model map lookup, assignment and `delete`.
* The SHA-256 fingerprint is a deterministic digest of the canonically
  marshalled payload and is treated by the program as collision free; in the
  model `fingerprint` is therefore the canonical payload itself — the program
  only ever compares fingerprints for equality.
* The marshalled response body (`json.Marshal t`) is modelled by the
  transaction value `t` itself: marshalling is deterministic, so equality of
  bodies coincides with equality of the marshalled values.
-/

namespace GoExamples

/-- Model of a Go `float64` as used by this program: amounts are only compared,
never computed with, so the finite/NaN/infinite split suffices. -/
inductive GoFloat where
  | finite (q : ℚ)
  | nan
  | posInf
  | negInf
deriving DecidableEq, Repr

/-- Model of `math.IsNaN`. -/
def GoFloat.isNaN : GoFloat → Bool
  | .nan => true
  | _ => false

/-- Model of `math.IsInf(x, 0)` (infinite of either sign). -/
def GoFloat.isInf : GoFloat → Bool
  | .posInf => true
  | .negInf => true
  | _ => false

/-- Model of the IEEE comparison `x <= 0` on a `float64`: false on NaN. -/
def GoFloat.leZero : GoFloat → Bool
  | .finite q => decide (q ≤ 0)
  | .nan => false
  | .posInf => false
  | .negInf => true

/-- Model of `unicode` white space for the ASCII range (space, tab, newline,
vertical tab, form feed, carriage return — the set `strings.TrimSpace` trims
there). -/
def isSpaceChar (c : Char) : Bool :=
  c = ' ' || c = '\t' || c = '\n' || c = '\r' || c.toNat = 11 || c.toNat = 12

/-- Model of `strings.TrimSpace`. -/
def trimSpace (s : String) : String :=
  (((s.toList.dropWhile isSpaceChar).reverse.dropWhile isSpaceChar).reverse).asString

/-- `transactionRequest` of the source: the inbound payload. -/
structure transactionRequest where
  FromAccountID : String
  ToAccountID : String
  Amount : GoFloat
deriving DecidableEq, Repr

/-- `validateTransactionRequest` of the source, returning `some msg` for the
error case and `none` on success. -/
def validateTransactionRequest (req : transactionRequest) : Option String :=
  let invalids : List String :=
    (if trimSpace req.FromAccountID = "" then ["from_account_id"] else []) ++
    (if trimSpace req.ToAccountID = "" ∨
        trimSpace req.FromAccountID = trimSpace req.ToAccountID then
      ["to_account_id"] else []) ++
    (if req.Amount.leZero ∨ req.Amount.isNaN ∨ req.Amount.isInf then
      ["amount"] else [])
  if invalids = [] then none
  else some ("invalid or missing: " ++ String.intercalate ", " invalids)

/-- `TransactionStatus` of the source. -/
inductive TransactionStatus where
  | pending
  | completed
  | failed
deriving DecidableEq, Repr

/-- `Transaction` of the source; `At` is the creation time (`time.Time`,
modelled as `Nat`). -/
structure Transaction where
  ID : String
  FromAccountID : String
  ToAccountID : String
  Amount : GoFloat
  At : Nat
  Status : TransactionStatus
deriving DecidableEq, Repr

/-- The fingerprint: SHA-256 of the canonical (field-order stable) marshalling
of the payload.  The digest is deterministic and treated as collision free by
the program, and is only ever compared for equality, so it is modelled by the
canonical payload itself. -/
def fingerprint (req : transactionRequest) : transactionRequest := req

/-- `idemRecord` of the source: one idempotency-cache entry.  `Hash` holds the
fingerprint, `Body` the marshalled response body (modelled by the marshalled
transaction value, see the header comment). -/
structure idemRecord where
  Hash : transactionRequest
  Tr : Transaction
  StatusCode : Nat
  CreatedAt : Nat
  Body : Transaction
  Location : String
deriving DecidableEq, Repr

/-- Association-list model of Go map lookup. -/
def lookupA {α : Type} : List (String × α) → String → Option α
  | [], _ => none
  | (k, v) :: rest, key => if k = key then some v else lookupA rest key

/-- Association-list model of Go map assignment `m[key] = v`. -/
def insertA {α : Type} : List (String × α) → String → α → List (String × α)
  | [], key, v => [(key, v)]
  | (k, w) :: rest, key, v =>
    if k = key then (key, v) :: rest else (k, w) :: insertA rest key v

/-- Association-list model of Go `delete(m, key)`. -/
def eraseA {α : Type} : List (String × α) → String → List (String × α)
  | [], _ => []
  | (k, w) :: rest, key => if k = key then rest else (k, w) :: eraseA rest key

/-- The mutable state of `conStoreWithIdempotency`: the record store
(`Transactions`, keyed by generated ID) and the idempotency cache
(`idemCache`, keyed by idempotency key). -/
structure StoreState where
  Transactions : List (String × Transaction)
  idemCache : List (String × idemRecord)
deriving DecidableEq, Repr

/-- The observable outcome of one `createTransaction` call. -/
inductive CreateResult where
  /-- HTTP 400 with the given error message. -/
  | validationError (msg : String)
  /-- HTTP 409, idempotency key reuse with a different payload. -/
  | conflict
  /-- Cached outcome replayed verbatim: the stored status code, body and
  Location. -/
  | replayed (statusCode : Nat) (body : Transaction) (location : String)
  /-- Fresh creation: status code, marshalled body and Location header. -/
  | created (statusCode : Nat) (body : Transaction) (location : String)
deriving DecidableEq, Repr

/-- The externally relevant effects of one `createTransaction` call, in
program order; used to state "before any Key Lock is acquired / before the
cache is touched" claims. -/
inductive Effect where
  | acquireKeyLock (key : String)
  | readIdemCache (key : String)
  | writeTransactions (id : String)
  | writeIdemCache (key : String)
  | releaseKeyLock (key : String)
deriving DecidableEq, Repr

/-- `createTransaction` of the source (the idempotency-cache variant).  The
HTTP / JSON binding layer is outside this core, so the function takes the
already-bound request `tin` and idempotency key `key`; the generated ID and
the current time are environment inputs `genID` and `now`.  Returns the
observable result, the successor store state, and the effect trace. -/
def createTransaction (key : String) (tin : transactionRequest)
    (genID : String) (now : Nat) (s : StoreState) :
    CreateResult × StoreState × List Effect :=
  match validateTransactionRequest tin with
  | some msg => (.validationError msg, s, [])
  | none =>
    let fp := fingerprint tin
    let status : Nat := 202
    if key ≠ "" then
      match lookupA s.idemCache key with
      | some cached =>
        if cached.Hash ≠ fp then
          (.conflict, s,
            [.acquireKeyLock key, .readIdemCache key, .releaseKeyLock key])
        else
          (.replayed cached.StatusCode cached.Body cached.Location, s,
            [.acquireKeyLock key, .readIdemCache key, .releaseKeyLock key])
      | none =>
        let t : Transaction :=
          ⟨genID, tin.FromAccountID, tin.ToAccountID, tin.Amount, now, .pending⟩
        let loc := "/transactions/" ++ genID
        let entry : idemRecord := ⟨fp, t, status, now, t, loc⟩
        (.created status t loc,
          ⟨insertA s.Transactions genID t, insertA s.idemCache key entry⟩,
          [.acquireKeyLock key, .readIdemCache key, .writeTransactions genID,
            .writeIdemCache key, .releaseKeyLock key])
    else
      let t : Transaction :=
        ⟨genID, tin.FromAccountID, tin.ToAccountID, tin.Amount, now, .pending⟩
      (.created status t ("/transactions/" ++ genID),
        ⟨insertA s.Transactions genID t, s.idemCache⟩,
        [.writeTransactions genID])

/-- Lookup after inserting the same key returns the inserted value. -/
theorem lookupA_insertA_self {α : Type} (m : List (String × α)) (k : String) (v : α) :
    lookupA (insertA m k v) k = some v := by
  induction m with
  | nil => simp [insertA, lookupA]
  | cons hd tl ih =>
    obtain ⟨k', w⟩ := hd
    by_cases h : k' = k
    · simp [insertA, lookupA, h]
    · simp [insertA, lookupA, h, ih]

/-- Lookup of a different key is unaffected by an insert. -/
theorem lookupA_insertA_ne {α : Type} (m : List (String × α)) (k k' : String) (v : α)
    (h : k' ≠ k) : lookupA (insertA m k v) k' = lookupA m k' := by
  induction m with
  | nil =>
    simp only [insertA, lookupA]
    rw [if_neg (fun hc => h (Eq.symm hc))]
  | cons hd tl ih =>
    obtain ⟨k₀, w⟩ := hd
    by_cases h₀ : k₀ = k
    · subst h₀
      simp [insertA, lookupA, Ne.symm h]
    · by_cases h₁ : k₀ = k'
      · simp [insertA, lookupA, h₀, h₁, h]
      · simp [insertA, lookupA, h₀, h₁, ih]

/-- C1 (safe replay): with a non-empty key whose cache entry's `Hash` equals
the request's fingerprint, `createTransaction` returns the cached outcome
verbatim (stored status code, stored body, stored Location) and leaves the
store state — both `Transactions` and `idemCache` — unchanged. -/
theorem createTransaction_replay (key : String) (tin : transactionRequest)
    (genID : String) (now : Nat) (s : StoreState) (cached : idemRecord)
    (hkey : key ≠ "")
    (hval : validateTransactionRequest tin = none)
    (hlook : lookupA s.idemCache key = some cached)
    (hfp : cached.Hash = fingerprint tin) :
    createTransaction key tin genID now s =
      (.replayed cached.StatusCode cached.Body cached.Location, s,
        [.acquireKeyLock key, .readIdemCache key, .releaseKeyLock key]) := by
  simp [createTransaction, hval, hkey, hlook, hfp]

/-- Concrete replay fixture: the payload of the spec's scenario. -/
def reqW : transactionRequest := ⟨"A1", "A2", .finite 10⟩

/-- Concrete stored transaction for the fixtures. -/
def trW : Transaction := ⟨"id1", "A1", "A2", .finite 10, 5, .pending⟩

/-- Concrete idempotency-cache entry for the fixtures. -/
def recW : idemRecord := ⟨reqW, trW, 202, 5, trW, "/transactions/id1"⟩

/-- Concrete store state holding `trW` under key `"k123"`. -/
def sW : StoreState := ⟨[("id1", trW)], [("k123", recW)]⟩

/-- Witness for C1 at the spec's own scenario (`"k123"`, A1→A2, amount 10). -/
theorem createTransaction_replay_witness :
    createTransaction "k123" reqW "id2" 9 sW =
      (.replayed 202 trW "/transactions/id1", sW,
        [.acquireKeyLock "k123", .readIdemCache "k123", .releaseKeyLock "k123"]) :=
  createTransaction_replay "k123" reqW "id2" 9 sW recW
    (by decide) (by decide) (by decide) (by decide)

/-- C2 (conflict): with a non-empty key whose cache entry's `Hash` differs
from the request's fingerprint, `createTransaction` fails with `Conflict` and
mutates nothing: the store state (both maps) is returned exactly as it was. -/
theorem createTransaction_conflict (key : String) (tin : transactionRequest)
    (genID : String) (now : Nat) (s : StoreState) (cached : idemRecord)
    (hkey : key ≠ "")
    (hval : validateTransactionRequest tin = none)
    (hlook : lookupA s.idemCache key = some cached)
    (hfp : cached.Hash ≠ fingerprint tin) :
    createTransaction key tin genID now s =
      (.conflict, s,
        [.acquireKeyLock key, .readIdemCache key, .releaseKeyLock key]) := by
  simp [createTransaction, hval, hkey, hlook, hfp]

/-- The spec scenario's second payload: same accounts, amount 20. -/
def req2W : transactionRequest := ⟨"A1", "A2", .finite 20⟩

/-- Witness for C2: replaying key `"k123"` with amount 20 against the entry
stored for amount 10 conflicts and leaves the state unchanged. -/
theorem createTransaction_conflict_witness :
    createTransaction "k123" req2W "id2" 9 sW =
      (.conflict, sW,
        [.acquireKeyLock "k123", .readIdemCache "k123", .releaseKeyLock "k123"]) :=
  createTransaction_conflict "k123" req2W "id2" 9 sW recW
    (by decide) (by decide) (by decide) (by decide)

/-- C4 (keyless path): with an empty idempotency key and a valid payload,
`createTransaction` unconditionally creates and stores a new `Record`, never
touches the `idemCache` (its effect trace holds no lock or cache operation and
the cache is returned unchanged); two keyless submissions under distinct
generated IDs both end up stored, as two distinct records. -/
theorem createTransaction_keyless (tin : transactionRequest)
    (genID : String) (now : Nat) (s : StoreState)
    (hval : validateTransactionRequest tin = none) :
    createTransaction "" tin genID now s =
      (.created 202 ⟨genID, tin.FromAccountID, tin.ToAccountID, tin.Amount, now, .pending⟩
          ("/transactions/" ++ genID),
        ⟨insertA s.Transactions genID
            ⟨genID, tin.FromAccountID, tin.ToAccountID, tin.Amount, now, .pending⟩,
          s.idemCache⟩,
        [.writeTransactions genID]) ∧
    ∀ genID₂ now₂, genID ≠ genID₂ →
      lookupA ((createTransaction "" tin genID₂ now₂
          (createTransaction "" tin genID now s).2.1).2.1).Transactions genID =
        some ⟨genID, tin.FromAccountID, tin.ToAccountID, tin.Amount, now, .pending⟩ ∧
      lookupA ((createTransaction "" tin genID₂ now₂
          (createTransaction "" tin genID now s).2.1).2.1).Transactions genID₂ =
        some ⟨genID₂, tin.FromAccountID, tin.ToAccountID, tin.Amount, now₂, .pending⟩ ∧
      ((createTransaction "" tin genID₂ now₂
          (createTransaction "" tin genID now s).2.1).2.1).idemCache = s.idemCache := by
  have hone : ∀ g n st, createTransaction "" tin g n st =
      (.created 202 ⟨g, tin.FromAccountID, tin.ToAccountID, tin.Amount, n, .pending⟩
          ("/transactions/" ++ g),
        ⟨insertA st.Transactions g
            ⟨g, tin.FromAccountID, tin.ToAccountID, tin.Amount, n, .pending⟩,
          st.idemCache⟩,
        [.writeTransactions g]) := by
    intro g n st
    simp [createTransaction, hval]
  refine ⟨hone genID now s, ?_⟩
  intro genID₂ now₂ hne
  simp only [hone]
  refine ⟨?_, ?_, ?_⟩
  · rw [lookupA_insertA_ne _ genID₂ genID _ hne, lookupA_insertA_self]
  · rw [lookupA_insertA_self]
  · trivial

/-- Witness for C4: two keyless submissions of the same valid payload under
distinct generated IDs create two distinct records. -/
theorem createTransaction_keyless_witness :
    lookupA ((createTransaction "" reqW "idB" 7
        (createTransaction "" reqW "idA" 6 ⟨[], []⟩).2.1).2.1).Transactions "idA" =
      some ⟨"idA", "A1", "A2", .finite 10, 6, .pending⟩ ∧
    lookupA ((createTransaction "" reqW "idB" 7
        (createTransaction "" reqW "idA" 6 ⟨[], []⟩).2.1).2.1).Transactions "idB" =
      some ⟨"idB", "A1", "A2", .finite 10, 7, .pending⟩ := by
  have h := (createTransaction_keyless reqW "idA" 6 ⟨[], []⟩ (by decide)).2
    "idB" 7 (by decide)
  exact ⟨h.1, h.2.1⟩

/-- C5 (validation short-circuit): for every invalid payload — blank source or
destination, source equal to destination, or amount non-positive, NaN or
infinite — `createTransaction` returns a `ValidationError`, leaves the store
state unchanged, and performs no effect at all: in particular no Key Lock is
acquired and the `idemCache` is neither read nor written. -/
theorem createTransaction_validationError (key : String) (tin : transactionRequest)
    (genID : String) (now : Nat) (s : StoreState)
    (hinv : trimSpace tin.FromAccountID = "" ∨ trimSpace tin.ToAccountID = "" ∨
        trimSpace tin.FromAccountID = trimSpace tin.ToAccountID ∨
        tin.Amount.leZero = true ∨ tin.Amount.isNaN = true ∨ tin.Amount.isInf = true) :
    ∃ msg, createTransaction key tin genID now s = (.validationError msg, s, []) := by
  have hsome : ∃ m, validateTransactionRequest tin = some m := by
    rcases hinv with h | h | h | h | h | h <;>
      simp [validateTransactionRequest, h]
  obtain ⟨m, hm⟩ := hsome
  exact ⟨m, by simp [createTransaction, hm]⟩

/-- Witness for C5: a payload whose source equals its destination is rejected
with no state change and no effects. -/
theorem createTransaction_validationError_witness :
    ∃ msg, createTransaction "k123" ⟨"A1", "A1", .finite 10⟩ "id9" 3 sW =
      (.validationError msg, sW, []) :=
  createTransaction_validationError "k123" ⟨"A1", "A1", .finite 10⟩ "id9" 3 sW
    (by right; right; left; decide)

/-! ### Key Lock Registry (`lockRegistry`) -/

/-- One registry-visible operation: an `acquire(key)` call, or the invocation
of the release handle it returned. -/
inductive LockOp where
  | acquire (key : String)
  | release (key : String)
deriving DecidableEq, Repr

/-- The registry-map action of `lockRegistry.acquire`: under the registry's
lock, look up or create the `keyLock` for `key` and increment its reference
count (`kl.refs++`).  The state is the registry map `m`, each entry holding
that key's `refs`. -/
def regAcquire (m : List (String × Nat)) (key : String) : List (String × Nat) :=
  match lookupA m key with
  | some n => insertA m key (n + 1)
  | none => insertA m key 1

/-- The registry-map action of the release handle: after the per-key mutex is
unlocked, under the registry's lock decrement `kl.refs` and delete the entry
when it reaches zero. -/
def regRelease (m : List (String × Nat)) (key : String) : List (String × Nat) :=
  match lookupA m key with
  | some n => if n - 1 = 0 then eraseA m key else insertA m key (n - 1)
  | none => m

/-- One step of the registry transition system. -/
def lockStep (m : List (String × Nat)) : LockOp → List (String × Nat)
  | .acquire k => regAcquire m k
  | .release k => regRelease m k

/-- The registry map after a sequence of acquire/release operations, starting
from the empty registry of `newLockRegistry`. -/
def execLockOps (ops : List LockOp) : List (String × Nat) :=
  ops.foldl lockStep []

/-- A successful lookup points at an entry of the list. -/
theorem lookupA_mem {α : Type} {m : List (String × α)} {k : String} {v : α}
    (h : lookupA m k = some v) : (k, v) ∈ m := by
  induction m with
  | nil => simp [lookupA] at h
  | cons hd tl ih =>
    obtain ⟨k₀, w⟩ := hd
    by_cases h₀ : k₀ = k
    · subst h₀
      simp [lookupA] at h
      simp [h]
    · simp [lookupA, h₀] at h
      exact List.mem_cons_of_mem _ (ih h)

/-- Every entry after an insert is an old entry or the inserted pair. -/
theorem mem_insertA {α : Type} {m : List (String × α)} {k : String} {v : α}
    {p : String × α} (h : p ∈ insertA m k v) : p ∈ m ∨ p = (k, v) := by
  induction m with
  | nil => simp [insertA] at h; simp [h]
  | cons hd tl ih =>
    obtain ⟨k₀, w⟩ := hd
    by_cases h₀ : k₀ = k
    · subst h₀
      simp [insertA] at h
      rcases h with h | h
      · right; simp [h]
      · left; exact List.mem_cons_of_mem _ h
    · simp [insertA, h₀] at h
      rcases h with h | h
      · left; simp [h]
      · rcases ih h with h' | h'
        · left; exact List.mem_cons_of_mem _ h'
        · right; exact h'

/-- `eraseA` only drops an entry. -/
theorem eraseA_sublist {α : Type} (m : List (String × α)) (k : String) :
    List.Sublist (eraseA m k) m := by
  induction m with
  | nil => simp [eraseA]
  | cons hd tl ih =>
    obtain ⟨k₀, w⟩ := hd
    by_cases h₀ : k₀ = k
    · simp only [eraseA, if_pos h₀]
      exact List.sublist_cons_self _ _
    · simp only [eraseA, if_neg h₀]
      exact List.Sublist.cons₂ _ ih

/-- If a key does not occur, its lookup fails. -/
theorem lookupA_eq_none {α : Type} {m : List (String × α)} {k : String}
    (h : k ∉ m.map Prod.fst) : lookupA m k = none := by
  induction m with
  | nil => simp [lookupA]
  | cons hd tl ih =>
    obtain ⟨k₀, w⟩ := hd
    rw [List.map_cons] at h
    have h1 : ¬k₀ = k := fun hc => h (hc ▸ List.mem_cons_self _ _)
    have h2 : k ∉ tl.map Prod.fst := fun hc => h (List.mem_cons_of_mem _ hc)
    simp [lookupA, h1, ih h2]

/-- With no duplicate keys, erasing a key makes its lookup fail. -/
theorem lookupA_eraseA_self {α : Type} {m : List (String × α)} {k : String}
    (h : (m.map Prod.fst).Nodup) : lookupA (eraseA m k) k = none := by
  induction m with
  | nil => simp [eraseA, lookupA]
  | cons hd tl ih =>
    obtain ⟨k₀, w⟩ := hd
    simp only [List.map_cons, List.nodup_cons] at h
    by_cases h₀ : k₀ = k
    · subst h₀
      simpa [eraseA] using lookupA_eq_none h.1
    · simp [eraseA, lookupA, h₀, ih h.2]

/-- Erasing one key leaves the other keys' lookups unchanged. -/
theorem lookupA_eraseA_ne {α : Type} (m : List (String × α)) (k k' : String)
    (h : k' ≠ k) : lookupA (eraseA m k) k' = lookupA m k' := by
  induction m with
  | nil => simp [eraseA]
  | cons hd tl ih =>
    obtain ⟨k₀, w⟩ := hd
    by_cases h₀ : k₀ = k
    · subst h₀
      have : ¬k₀ = k' := fun hc => h hc.symm
      simp [eraseA, lookupA, this]
    · by_cases h₁ : k₀ = k'
      · simp [eraseA, lookupA, h₀, h₁, h]
      · simp [eraseA, lookupA, h₀, h₁, ih]

/-- Keys of an insert are keys of the original or the inserted key. -/
theorem keys_insertA_subset {α : Type} {m : List (String × α)} {k a : String}
    {v : α} (h : a ∈ (insertA m k v).map Prod.fst) :
    a ∈ m.map Prod.fst ∨ a = k := by
  simp only [List.mem_map] at h
  obtain ⟨p, hp, hpa⟩ := h
  rcases mem_insertA hp with h' | h'
  · left; exact List.mem_map.mpr ⟨p, h', hpa⟩
  · right; rw [← hpa, h']

/-- `insertA` preserves key nodup-ness. -/
theorem keysNodup_insertA {α : Type} {m : List (String × α)} {k : String}
    {v : α} (h : (m.map Prod.fst).Nodup) :
    ((insertA m k v).map Prod.fst).Nodup := by
  induction m with
  | nil => simp [insertA]
  | cons hd tl ih =>
    obtain ⟨k₀, w⟩ := hd
    by_cases h₀ : k₀ = k
    · subst h₀
      simpa [insertA] using h
    · simp only [List.map_cons, List.nodup_cons] at h
      simp only [insertA, if_neg h₀, List.map_cons, List.nodup_cons]
      refine ⟨?_, ih h.2⟩
      intro hc
      rcases keys_insertA_subset hc with h' | h'
      · exact h.1 h'
      · exact h₀ h'

/-- `eraseA` preserves key nodup-ness. -/
theorem keysNodup_eraseA {α : Type} {m : List (String × α)} (k : String)
    (h : (m.map Prod.fst).Nodup) : ((eraseA m k).map Prod.fst).Nodup :=
  h.sublist ((eraseA_sublist m k).map Prod.fst)

/-- Registry invariant: every resident entry has a positive reference count
and the key set is duplicate free. -/
def regGood (m : List (String × Nat)) : Prop :=
  (∀ p ∈ m, 1 ≤ p.2) ∧ (m.map Prod.fst).Nodup

/-- One registry step preserves the invariant. -/
theorem regGood_step {m : List (String × Nat)} (op : LockOp) (h : regGood m) :
    regGood (lockStep m op) := by
  obtain ⟨hpos, hnod⟩ := h
  cases op with
  | acquire k =>
    show regGood (regAcquire m k)
    cases hl : lookupA m k with
    | some n =>
      simp only [regAcquire, hl]
      refine ⟨?_, keysNodup_insertA hnod⟩
      intro p hp
      rcases mem_insertA hp with h' | h'
      · exact hpos p h'
      · simp [h']
    | none =>
      simp only [regAcquire, hl]
      refine ⟨?_, keysNodup_insertA hnod⟩
      intro p hp
      rcases mem_insertA hp with h' | h'
      · exact hpos p h'
      · simp [h']
  | release k =>
    show regGood (regRelease m k)
    cases hl : lookupA m k with
    | some n =>
      simp only [regRelease, hl]
      by_cases h1 : n - 1 = 0
      · simp only [h1, if_pos rfl]
        refine ⟨?_, keysNodup_eraseA k hnod⟩
        intro p hp
        exact hpos p ((eraseA_sublist m k).mem hp)
      · simp only [if_neg h1]
        refine ⟨?_, keysNodup_insertA hnod⟩
        intro p hp
        rcases mem_insertA hp with h' | h'
        · exact hpos p h'
        · have : p.2 = n - 1 := by rw [h']
          omega
    | none =>
      simp only [regRelease, hl]
      exact ⟨hpos, hnod⟩

/-- The registry reached by any operation sequence satisfies the invariant. -/
theorem regGood_execLockOps (ops : List LockOp) : regGood (execLockOps ops) := by
  suffices h : ∀ m, regGood m → regGood (List.foldl lockStep m ops) by
    exact h [] ⟨by simp, by simp⟩
  induction ops with
  | nil => intro m hm; simpa using hm
  | cons op ops ih =>
    intro m hm
    exact ih _ (regGood_step op hm)

/-- C6: after any sequence of acquire/release operations starting from the
empty registry, the registry map holds an entry for a key exactly when that
key's reference count is at least 1; and on such a state the release handle's
map action deletes the entry exactly when the count is 1, otherwise
decrements it, leaving all other keys' entries unchanged. -/
theorem lockRegistry_refcount (ops : List LockOp) (k : String) :
    ((lookupA (execLockOps ops) k).isSome ↔
      1 ≤ (lookupA (execLockOps ops) k).getD 0) ∧
    ∀ n, lookupA (execLockOps ops) k = some n →
      (lookupA (regRelease (execLockOps ops) k) k =
        if n = 1 then none else some (n - 1)) ∧
      ∀ k', k' ≠ k →
        lookupA (regRelease (execLockOps ops) k) k' =
          lookupA (execLockOps ops) k' := by
  obtain ⟨hpos, hnod⟩ := regGood_execLockOps ops
  constructor
  · cases hl : lookupA (execLockOps ops) k with
    | none => simp
    | some n =>
      have := hpos _ (lookupA_mem hl)
      simpa using this
  · intro n hn
    have hn1 : 1 ≤ n := hpos _ (lookupA_mem hn)
    simp only [regRelease, hn]
    by_cases h1 : n = 1
    · subst h1
      simp only [Nat.sub_self, if_pos rfl]
      exact ⟨by simp [lookupA_eraseA_self hnod],
        fun k' hk' => lookupA_eraseA_ne _ _ _ hk'⟩
    · have h2 : ¬(n - 1 = 0) := by omega
      simp only [h2, ite_false, if_neg h1]
      exact ⟨lookupA_insertA_self _ _ _,
        fun k' hk' => lookupA_insertA_ne _ _ _ _ hk'⟩

/-- Witness for C6: two acquires of key `"a"` leave count 2; one release
decrements to 1 without deleting. -/
theorem lockRegistry_refcount_witness :
    lookupA (execLockOps [.acquire "a", .acquire "a"]) "a" = some 2 ∧
    lookupA (regRelease (execLockOps [.acquire "a", .acquire "a"]) "a") "a" =
      some 1 := by
  have h := (lockRegistry_refcount [.acquire "a", .acquire "a"] "a").2 2 (by rfl)
  exact ⟨by rfl, by simpa using h.1⟩

/-! ### TTL Sweeper (`startCacheSweeperWith`) -/

/-- One pass of the sweeper's ticker branch: under the store's exclusive lock,
delete every idempotency entry whose age `now.Sub(rec.CreatedAt)` strictly
exceeds `ttl`; nothing else is touched. -/
def sweepOnce (s : StoreState) (now : Nat) (ttl : Int) : StoreState :=
  ⟨s.Transactions,
    s.idemCache.filter
      (fun e => !decide ((now : Int) - (e.2.CreatedAt : Int) > ttl))⟩

/-- C7: a single sweeper pass leaves the record store (`Transactions`)
entirely unmodified, keeps the surviving cache entries in place (the new cache
is a sublist of the old), and retains an entry exactly when its age does not
strictly exceed the TTL. -/
theorem sweepOnce_spec (s : StoreState) (now : Nat) (ttl : Int) :
    (sweepOnce s now ttl).Transactions = s.Transactions ∧
    List.Sublist (sweepOnce s now ttl).idemCache s.idemCache ∧
    ∀ k e, ((k, e) ∈ (sweepOnce s now ttl).idemCache ↔
      (k, e) ∈ s.idemCache ∧ ¬((now : Int) - (e.CreatedAt : Int) > ttl)) := by
  refine ⟨rfl, List.filter_sublist _, ?_⟩
  intro k e
  simp [sweepOnce, List.mem_filter]

/-! ### `parseLimit` -/

/-- `defaultEntriesLimit` of the source. -/
def defaultEntriesLimit : Nat := 20

/-- `maxEntriesLimit` of the source. -/
def maxEntriesLimit : Nat := 100

/-- `math.MaxInt64`: the largest value of Go's 64-bit `int`. -/
def maxInt64 : Int := 9223372036854775807

/-- Model of `strconv.Atoi` (= `ParseInt(s, 10, 0)` with 64-bit `int`): an
optional sign followed by one or more ASCII digits, and the value must fit in
the machine int range `[-2^63, 2^63-1]`; a syntax or range failure is an
error (`none`), exactly as `Atoi`'s `ErrSyntax`/`ErrRange`. -/
def goAtoi (s : String) : Option Int :=
  let digitsVal : List Char → Option Nat := fun l =>
    if l ≠ [] ∧ l.all (fun c => 48 ≤ c.toNat ∧ c.toNat ≤ 57) then
      some (l.foldl (fun acc c => acc * 10 + (c.toNat - 48)) 0)
    else none
  match s.toList with
  | '+' :: restCs => (digitsVal restCs).bind
      (fun n => if (n : Int) ≤ maxInt64 then some (n : Int) else none)
  | '-' :: restCs => (digitsVal restCs).bind
      (fun n => if (n : Int) ≤ maxInt64 + 1 then some (-(n : Int)) else none)
  | cs => (digitsVal cs).bind
      (fun n => if (n : Int) ≤ maxInt64 then some (n : Int) else none)

/-- `parseLimit` of the source: a trimmed-empty query yields the default
limit; an `Atoi` failure or a non-positive value is the error
`invalid limit`; a value above `maxEntriesLimit` is silently clamped to it. -/
def parseLimit (q : String) : Except String Int :=
  if trimSpace q = "" then .ok (defaultEntriesLimit : Int)
  else
    match goAtoi q with
    | none => .error "invalid limit"
    | some n =>
      if n ≤ 0 then .error "invalid limit"
      else if n > (maxEntriesLimit : Int) then .ok (maxEntriesLimit : Int)
      else .ok n

/-- Counterexample to C8 as stated: the input `"101"` exceeds the configured
maximum 100, yet `parseLimit` does not reject it as a validation error — it
silently clamps and returns a full-size page limit of 100. -/
theorem parseLimit_counterexample : parseLimit "101" = .ok 100 := by rfl

/-- C8 amended: the empty (trimmed) input yields the default 20; non-numeric
input, non-positive values, and numerals the machine int cannot hold
(`Atoi`'s range error) are rejected as `invalid limit`; a value in [1, 100]
is returned as is; but a representable value above the configured maximum 100
is silently clamped to 100 rather than rejected — so every accepted limit
lies in [1, 100]. -/
theorem parseLimit_spec (q : String) :
    (∀ n, parseLimit q = .ok n → 1 ≤ n ∧ n ≤ 100) ∧
    (trimSpace q = "" → parseLimit q = .ok 20) ∧
    (trimSpace q ≠ "" → goAtoi q = none → parseLimit q = .error "invalid limit") ∧
    (∀ v, trimSpace q ≠ "" → goAtoi q = some v → v ≤ 0 →
      parseLimit q = .error "invalid limit") ∧
    (∀ v, trimSpace q ≠ "" → goAtoi q = some v → 100 < v →
      parseLimit q = .ok 100) ∧
    (∀ v, trimSpace q ≠ "" → goAtoi q = some v → 1 ≤ v → v ≤ 100 →
      parseLimit q = .ok v) := by
  refine ⟨?_, ?_, ?_, ?_, ?_, ?_⟩
  · intro n hn
    unfold parseLimit at hn
    by_cases he : trimSpace q = ""
    · rw [if_pos he] at hn
      simp only [Except.ok.injEq] at hn
      subst hn
      norm_num [defaultEntriesLimit]
    · rw [if_neg he] at hn
      cases hg : goAtoi q with
      | none => simp [hg] at hn
      | some v =>
        by_cases h0 : v ≤ 0
        · simp [hg, h0] at hn
        · by_cases hm : v > (maxEntriesLimit : Int)
          · simp only [hg, h0, hm, if_pos, if_neg, ite_true, ite_false,
              Except.ok.injEq, if_false, if_true] at hn
            subst hn
            norm_num [maxEntriesLimit]
          · simp only [hg, h0, hm, ite_false, if_neg, Except.ok.injEq] at hn
            subst hn
            norm_num [maxEntriesLimit] at hm
            omega
  · intro he; simp [parseLimit, he, defaultEntriesLimit]
  · intro he hg; simp [parseLimit, he, hg]
  · intro v he hg h0; simp [parseLimit, he, hg, h0]
  · intro v he hg hv
    have h0 : ¬(v ≤ 0) := by omega
    have hm : v > (maxEntriesLimit : Int) := by norm_num [maxEntriesLimit]; omega
    simp only [parseLimit, if_neg he, hg, if_neg h0, if_pos hm]
    norm_num [maxEntriesLimit]
  · intro v he hg h1 h100
    have h0 : ¬(v ≤ 0) := by omega
    have hm : ¬(v > (maxEntriesLimit : Int)) := by simp [maxEntriesLimit]; omega
    simp [parseLimit, he, hg, h0, hm]

/-- Witness for the amended C8: `"101"` parses to 101 > 100 and is clamped to
100, while a numeral beyond the machine int range is rejected as
`invalid limit` (the `Atoi` range-error path). -/
theorem parseLimit_spec_witness :
    parseLimit "101" = .ok 100 ∧
    parseLimit "99999999999999999999999999" = .error "invalid limit" :=
  ⟨(parseLimit_spec "101").2.2.2.2.1 101 (by decide) (by rfl) (by decide),
    (parseLimit_spec "99999999999999999999999999").2.2.1 (by decide) (by rfl)⟩

/-! ### Cursor pagination (`listTransactions`) -/

/-- `trCursor` of the source: the last-returned `(At, ID)` pair plus the
filter value (`FA`, the from-account) in effect when the cursor was issued.
The zero value (`At = 0`, the Go zero time) stands for an absent cursor,
exactly as a trimmed-empty cursor string decodes to the zero value. -/
structure trCursor where
  At : Nat
  ID : String
  FA : String
deriving DecidableEq, Repr

/-- Computable lexicographic comparison of char lists: the model of Go's
byte-wise string comparison `<`. -/
def charListLt : List Char → List Char → Bool
  | _, [] => false
  | [], _ :: _ => true
  | a :: as, b :: bs =>
    if a < b then true
    else if b < a then false
    else charListLt as bs

/-- Go string `<` (lexicographic). -/
def strLt (a b : String) : Bool := charListLt a.toList b.toList

/-- Go string `<=`: the negation of the reversed `<` of a total order. -/
def strLe (a b : String) : Bool := !(strLt b a)

theorem charListLt_irrefl (l : List Char) : charListLt l l = false := by
  induction l with
  | nil => rfl
  | cons a as ih => simp [charListLt, ih]

theorem charListLt_asymm {l₁ l₂ : List Char} (h : charListLt l₁ l₂ = true) :
    charListLt l₂ l₁ = false := by
  induction l₁ generalizing l₂ with
  | nil =>
    cases l₂ with
    | nil => exact Bool.noConfusion h
    | cons b bs => rfl
  | cons a as ih =>
    cases l₂ with
    | nil => simp [charListLt] at h
    | cons b bs =>
      by_cases hab : a < b
      · have hba : ¬b < a := lt_asymm hab
        simp [charListLt, hab, hba]
      · by_cases hba : b < a
        · simp [charListLt, hab, hba] at h
        · simp only [charListLt, if_neg hab, if_neg hba] at h
          simp only [charListLt, if_neg hba, if_neg hab]
          exact ih h

theorem charListLt_trans {l₁ l₂ l₃ : List Char} (h₁ : charListLt l₁ l₂ = true)
    (h₂ : charListLt l₂ l₃ = true) : charListLt l₁ l₃ = true := by
  induction l₁ generalizing l₂ l₃ with
  | nil =>
    cases l₃ with
    | nil =>
      cases l₂ with
      | nil => exact h₁
      | cons b bs => simp [charListLt] at h₂
    | cons c cs => rfl
  | cons a as ih =>
    cases l₂ with
    | nil => simp [charListLt] at h₁
    | cons b bs =>
      cases l₃ with
      | nil => simp [charListLt] at h₂
      | cons c cs =>
        rcases lt_trichotomy a b with hab | hab | hab
        · rcases lt_trichotomy b c with hbc | hbc | hbc
          · have hac := lt_trans hab hbc
            simp [charListLt, hac]
          · subst hbc
            simp [charListLt, hab]
          · by_cases hcb2 : b < c
            · exact absurd hcb2 (lt_asymm hbc)
            · simp [charListLt, hbc, hcb2] at h₂
        · subst hab
          simp only [charListLt, if_neg (lt_irrefl a)] at h₁
          rcases lt_trichotomy a c with hac | hac | hac
          · simp [charListLt, hac]
          · subst hac
            simp only [charListLt, if_neg (lt_irrefl a)] at h₂ ⊢
            exact ih h₁ h₂
          · by_cases h' : a < c
            · exact absurd h' (lt_asymm hac)
            · simp [charListLt, hac, h'] at h₂
        · by_cases h' : a < b
          · exact absurd h' (lt_asymm hab)
          · simp [charListLt, hab, h'] at h₁

theorem charListLt_trichotomy (l₁ l₂ : List Char) :
    charListLt l₁ l₂ = true ∨ l₁ = l₂ ∨ charListLt l₂ l₁ = true := by
  induction l₁ generalizing l₂ with
  | nil =>
    cases l₂ with
    | nil => exact Or.inr (Or.inl rfl)
    | cons b bs => exact Or.inl rfl
  | cons a as ih =>
    cases l₂ with
    | nil => exact Or.inr (Or.inr rfl)
    | cons b bs =>
      rcases lt_trichotomy a b with hab | hab | hab
      · exact Or.inl (by simp [charListLt, hab])
      · subst hab
        rcases ih bs with h | h | h
        · exact Or.inl (by simp [charListLt, h])
        · exact Or.inr (Or.inl (by rw [h]))
        · exact Or.inr (Or.inr (by simp [charListLt, h]))
      · exact Or.inr (Or.inr (by simp [charListLt, hab]))

theorem strLt_irrefl (a : String) : strLt a a = false := charListLt_irrefl _

theorem strLt_asymm {a b : String} (h : strLt a b = true) : strLt b a = false :=
  charListLt_asymm h

theorem strLt_trans {a b c : String} (h₁ : strLt a b = true)
    (h₂ : strLt b c = true) : strLt a c = true := charListLt_trans h₁ h₂

theorem strLt_trichotomy (a b : String) :
    strLt a b = true ∨ a = b ∨ strLt b a = true := by
  rcases charListLt_trichotomy a.toList b.toList with h | h | h
  · exact Or.inl h
  · refine Or.inr (Or.inl ?_)
    cases a; cases b
    simp only [String.toList] at h
    rw [h]
  · exact Or.inr (Or.inr h)

/-- `afterCursor` of the source: `(a.At, a.ID) > (cur.At, cur.ID)`, written as
the source's two-test chain. -/
def afterCursor (a : Transaction) (cur : trCursor) : Bool :=
  if cur.At < a.At then true
  else if a.At = cur.At ∧ strLt cur.ID a.ID then true
  else false

/-- The non-strict version of the `sort.Slice` comparator of the source:
creation time ascending, ID ascending as the tie-break. -/
def trLE (a b : Transaction) : Prop :=
  a.At < b.At ∨ (a.At = b.At ∧ strLe a.ID b.ID = true)

/-- The strict (At, ID) order; the source's comparator itself. -/
def trLT (a b : Transaction) : Prop :=
  a.At < b.At ∨ (a.At = b.At ∧ strLt a.ID b.ID = true)

instance : DecidableRel trLE := fun a b => by unfold trLE; infer_instance

instance : DecidableRel trLT := fun a b => by unfold trLT; infer_instance

instance : IsTotal Transaction trLE := by
  constructor
  intro a b
  unfold trLE
  rcases Nat.lt_trichotomy a.At b.At with h | h | h
  · exact Or.inl (Or.inl h)
  · cases hl : strLt b.ID a.ID with
    | false => exact Or.inl (Or.inr ⟨h, by simp [strLe, hl]⟩)
    | true => exact Or.inr (Or.inr ⟨h.symm, by simp [strLe, strLt_asymm hl]⟩)
  · exact Or.inr (Or.inl h)

instance : IsTrans Transaction trLE := by
  constructor
  intro a b c hab hbc
  unfold trLE at *
  rcases hab with h | ⟨h, h'⟩ <;> rcases hbc with g | ⟨g, g'⟩
  · exact Or.inl (h.trans g)
  · exact Or.inl (g ▸ h)
  · exact Or.inl (h ▸ g)
  · refine Or.inr ⟨h.trans g, ?_⟩
    simp only [strLe, Bool.not_eq_true'] at h' g' ⊢
    cases hc : strLt c.ID a.ID with
    | false => rfl
    | true =>
      exfalso
      rcases strLt_trichotomy a.ID b.ID with hab' | hab' | hab'
      · have ht := strLt_trans hc hab'
        rw [g'] at ht
        exact Bool.noConfusion ht
      · rw [hab'] at hc
        rw [g'] at hc
        exact Bool.noConfusion hc
      · rw [h'] at hab'
        exact Bool.noConfusion hab'

/-- `trLT` is irreflexive. -/
theorem trLT_irrefl (a : Transaction) : ¬trLT a a := by
  unfold trLT
  simp [strLt_irrefl]

/-- `trLT` is asymmetric. -/
theorem trLT_asymm {a b : Transaction} (h : trLT a b) : ¬trLT b a := by
  unfold trLT at *
  rcases h with h | ⟨h, h'⟩ <;> intro hc <;> rcases hc with g | ⟨g, g'⟩
  · omega
  · omega
  · omega
  · rw [strLt_asymm h'] at g'
    exact Bool.noConfusion g'

/-- A non-strict pair with distinct IDs is strict. -/
theorem trLT_of_trLE_ne {a b : Transaction} (h : trLE a b) (hne : a.ID ≠ b.ID) :
    trLT a b := by
  unfold trLE at h
  unfold trLT
  rcases h with h | ⟨h, h'⟩
  · exact Or.inl h
  · refine Or.inr ⟨h, ?_⟩
    simp only [strLe, Bool.not_eq_true'] at h'
    rcases strLt_trichotomy a.ID b.ID with h₂ | h₂ | h₂
    · exact h₂
    · exact absurd h₂ hne
    · rw [h'] at h₂
      exact Bool.noConfusion h₂

/-- `afterCursor` as a proposition. -/
theorem afterCursor_eq_true_iff (a : Transaction) (cur : trCursor) :
    afterCursor a cur = true ↔
      (cur.At < a.At ∨ (a.At = cur.At ∧ strLt cur.ID a.ID = true)) := by
  unfold afterCursor
  split_ifs with h1 h2 <;> simp_all

/-- A transaction is after the cursor built from `x` exactly when it is
strictly greater than `x` in the (At, ID) order. -/
theorem afterCursor_mk_iff (a x : Transaction) (fa : String) :
    afterCursor a ⟨x.At, x.ID, fa⟩ = true ↔ trLT x a := by
  rw [afterCursor_eq_true_iff]
  unfold trLT
  constructor
  · rintro (h | ⟨h, h'⟩)
    · exact Or.inl h
    · exact Or.inr ⟨h.symm, h'⟩
  · rintro (h | ⟨h, h'⟩)
    · exact Or.inl h
    · exact Or.inr ⟨h.symm, h'⟩

/-- The source's filter in `listTransactions`'s snapshot loop: skip `t` iff a
non-empty filter is set and `t`'s from-account differs from it. -/
def matchesFrom (fromA : String) (t : Transaction) : Bool :=
  if fromA ≠ "" ∧ t.FromAccountID ≠ fromA then false else true

/-- The snapshot of matching records, sorted by the source's comparator
(`sort.Slice` with (At ASC, ID ASC)). -/
def sortedMatching (items : List Transaction) (fromA : String) : List Transaction :=
  List.insertionSort trLE (items.filter (matchesFrom fromA))

/-- The source's keyset-window scan: the index of the first element after the
cursor, or the length if none is (`start = len(items)` in the loop). -/
def firstAfter (cur : trCursor) : List Transaction → Nat
  | [] => 0
  | t :: rest => if afterCursor t cur then 0 else firstAfter cur rest + 1

/-- The window start of `listTransactions`: 0 for the absent (zero) cursor,
otherwise the first index strictly after the cursor. -/
def startIndex (items : List Transaction) (cur : trCursor) : Nat :=
  if cur.At = 0 then 0 else firstAfter cur items

/-- `listTransactions` of the source, after its query-parsing prefix: the
limit is the `parseLimit` result, the cursor the `decodeCursor` result (the
zero cursor for an absent one), and the returned next cursor is the value that
`encodeCursor` would serialize.  Mirrors: the cursor/query mismatch check,
snapshot filtered by `from_account_id`, sort by (At ASC, ID ASC), keyset
window of `limit` elements, and a next cursor only if more items remain. -/
def listTransactions (items : List Transaction) (fromA : String)
    (cur : trCursor) (limit : Nat) :
    Except String (List Transaction × Option trCursor) :=
  if cur.FA ≠ "" ∧ cur.FA ≠ fromA then .error "cursor does not match query"
  else
    let sorted := sortedMatching items fromA
    let start := startIndex sorted cur
    let page := (sorted.drop start).take limit
    let next : Option trCursor :=
      if start + limit < sorted.length ∧ page ≠ [] then
        match page.getLast? with
        | some last => some ⟨last.At, last.ID, fromA⟩
        | none => none
      else none
    .ok (page, next)

/-- The absent cursor: what `decodeCursor` yields for an empty cursor
string. -/
def zeroCursor : trCursor := ⟨0, "", ""⟩

/-- Concatenation of all pages obtained by starting from `cur` and following
each returned next cursor, with explicit fuel. -/
def collectPages (items : List Transaction) (fromA : String) (limit : Nat) :
    Nat → trCursor → List Transaction
  | 0, _ => []
  | fuel + 1, cur =>
    match listTransactions items fromA cur limit with
    | .error _ => []
    | .ok (page, none) => page
    | .ok (page, some nc) => page ++ collectPages items fromA limit fuel nc

/-- `firstAfter` finds the unique boundary position: everything before `n`
fails the predicate and position `n` (if any) satisfies it. -/
theorem firstAfter_spec (cur : trCursor) (L : List Transaction) (n : Nat)
    (hn : n ≤ L.length)
    (hbefore : ∀ i (h : i < L.length), i < n →
      afterCursor (L.get ⟨i, h⟩) cur = false)
    (hat : ∀ h : n < L.length, afterCursor (L.get ⟨n, h⟩) cur = true) :
    firstAfter cur L = n := by
  induction L generalizing n with
  | nil =>
    simp at hn
    simpa [firstAfter] using hn.symm
  | cons t rest ih =>
    cases n with
    | zero =>
      have h0 := hat (by simp)
      simp only [List.get] at h0
      simp [firstAfter, h0]
    | succ m =>
      have h0 : afterCursor t cur = false := by
        have := hbefore 0 (by simp) (by omega)
        simpa using this
      have hrec : firstAfter cur rest = m := by
        refine ih m (by simpa using hn) ?_ ?_
        · intro i h hi
          have := hbefore (i + 1) (by simpa using Nat.succ_lt_succ h) (by omega)
          simpa using this
        · intro h
          have := hat (by simpa using Nat.succ_lt_succ h)
          simpa using this
      simp [firstAfter, h0, hrec]

/-- The last element of a full page `L[k : k+limit]` is `L[k+limit-1]`. -/
theorem page_getLast (L : List Transaction) (k limit : Nat) (hlim : 1 ≤ limit)
    (h : k + limit ≤ L.length) :
    ((L.drop k).take limit).getLast? = L[k + limit - 1]? := by
  rw [List.getLast?_eq_getElem?]
  have hlen : ((L.drop k).take limit).length = limit := by
    simp only [List.length_take, List.length_drop]
    omega
  rw [hlen, List.getElem?_take, if_pos (by omega : limit - 1 < limit),
    List.getElem?_drop]
  congr 1
  omega

/-- After serving a full page ending at `L[k+limit-1]`, the next cursor's
window starts exactly at `k + limit`. -/
theorem startIndex_next (L : List Transaction) (hpw : L.Pairwise trLT)
    (hpos : ∀ t ∈ L, 1 ≤ t.At) (k limit : Nat) (hlim : 1 ≤ limit)
    (hmore : k + limit ≤ L.length) (fa : String)
    (hklim : k + limit - 1 < L.length) :
    startIndex L ⟨(L.get ⟨k + limit - 1, hklim⟩).At,
      (L.get ⟨k + limit - 1, hklim⟩).ID, fa⟩ = k + limit := by
  set last := L.get ⟨k + limit - 1, hklim⟩ with hlast
  have hAt : 1 ≤ last.At := hpos _ (L.get_mem _ _)
  unfold startIndex
  rw [if_neg (by simp; omega)]
  refine firstAfter_spec _ L (k + limit) hmore ?_ ?_
  · intro i h hi
    refine Bool.eq_false_iff.mpr (fun hb => ?_)
    have hlt : trLT last (L.get ⟨i, h⟩) := (afterCursor_mk_iff _ _ _).mp hb
    by_cases hi' : i = k + limit - 1
    · subst hi'
      exact trLT_irrefl _ (by simpa [← hlast] using hlt)
    · have hij : trLT (L.get ⟨i, h⟩) last :=
        List.pairwise_iff_get.mp hpw ⟨i, h⟩ ⟨k + limit - 1, hklim⟩ (by
          simp only [Fin.mk_lt_mk]
          omega)
      exact trLT_asymm hij hlt
  · intro h
    rw [afterCursor_mk_iff]
    have := List.pairwise_iff_get.mp hpw ⟨k + limit - 1, hklim⟩ ⟨k + limit, h⟩
      (by simp only [Fin.mk_lt_mk]; omega)
    simpa [← hlast] using this

/-- Unfolding of a `listTransactions` call that passes the filter check. -/
theorem listTransactions_ok (items : List Transaction) (fromA : String)
    (cur : trCursor) (limit : Nat) (hfa : cur.FA = "" ∨ cur.FA = fromA) :
    listTransactions items fromA cur limit =
      .ok (((sortedMatching items fromA).drop
              (startIndex (sortedMatching items fromA) cur)).take limit,
        if startIndex (sortedMatching items fromA) cur + limit <
              (sortedMatching items fromA).length ∧
            ((sortedMatching items fromA).drop
              (startIndex (sortedMatching items fromA) cur)).take limit ≠ [] then
          match (((sortedMatching items fromA).drop
              (startIndex (sortedMatching items fromA) cur)).take limit).getLast? with
          | some last => some ⟨last.At, last.ID, fromA⟩
          | none => none
        else none) := by
  unfold listTransactions
  rw [if_neg (by rcases hfa with h | h <;> simp [h])]

/-- One `collectPages` step when a next cursor is returned. -/
theorem collectPages_succ_some {items : List Transaction} {fromA : String}
    {limit fuel : Nat} {cur nc : trCursor} {page : List Transaction}
    (h : listTransactions items fromA cur limit = .ok (page, some nc)) :
    collectPages items fromA limit (fuel + 1) cur =
      page ++ collectPages items fromA limit fuel nc := by
  conv_lhs => unfold collectPages
  rw [h]

/-- One `collectPages` step when no next cursor is returned. -/
theorem collectPages_succ_none {items : List Transaction} {fromA : String}
    {limit fuel : Nat} {cur : trCursor} {page : List Transaction}
    (h : listTransactions items fromA cur limit = .ok (page, none)) :
    collectPages items fromA limit (fuel + 1) cur = page := by
  unfold collectPages
  rw [h]

/-- A non-empty cursor filter differing from the query filter makes
`listTransactions` fail with the mismatch error. -/
theorem listTransactions_mismatch (items : List Transaction) (fromA : String)
    (cur : trCursor) (limit : Nat) (h : cur.FA ≠ "" ∧ cur.FA ≠ fromA) :
    listTransactions items fromA cur limit =
      .error "cursor does not match query" := by
  unfold listTransactions
  rw [if_pos h]

/-- Following next cursors from window start `k` yields exactly the suffix
`L.drop k` of the sorted matching list. -/
theorem collectPages_drop (items : List Transaction) (fromA : String)
    (limit : Nat) (hlim : 1 ≤ limit)
    (hpw : (sortedMatching items fromA).Pairwise trLT)
    (hpos : ∀ t ∈ sortedMatching items fromA, 1 ≤ t.At) :
    ∀ (fuel k : Nat) (cur : trCursor), (cur.FA = "" ∨ cur.FA = fromA) →
      startIndex (sortedMatching items fromA) cur = k →
      (sortedMatching items fromA).length - k < fuel →
      collectPages items fromA limit fuel cur =
        (sortedMatching items fromA).drop k := by
  intro fuel
  induction fuel with
  | zero => intro k cur _ _ hfuel; omega
  | succ fuel ih =>
    intro k cur hfa hstart hfuel
    have hok := listTransactions_ok items fromA cur limit hfa
    rw [hstart] at hok
    set L := sortedMatching items fromA with hL
    by_cases hcase : k + limit < L.length ∧ (L.drop k).take limit ≠ []
    · have hklim : k + limit - 1 < L.length := by omega
      have hgl : ((L.drop k).take limit).getLast? =
          some (L.get ⟨k + limit - 1, hklim⟩) := by
        rw [page_getLast L k limit hlim (le_of_lt hcase.1),
          List.getElem?_eq_getElem hklim]
        rfl
      have hnext : listTransactions items fromA cur limit =
          .ok ((L.drop k).take limit,
            some ⟨(L.get ⟨k + limit - 1, hklim⟩).At,
              (L.get ⟨k + limit - 1, hklim⟩).ID, fromA⟩) := by
        rw [hok, if_pos hcase, hgl]
      rw [collectPages_succ_some hnext]
      have hstart' := startIndex_next L hpw hpos k limit hlim
        (le_of_lt hcase.1) fromA hklim
      rw [ih (k + limit) _ (Or.inr rfl) hstart' (by omega)]
      have hdd : L.drop (k + limit) = (L.drop k).drop limit := by
        rw [List.drop_drop]
      rw [hdd, List.take_append_drop]
    · have hnext : listTransactions items fromA cur limit =
          .ok ((L.drop k).take limit, none) := by
        rw [hok, if_neg hcase]
      rw [collectPages_succ_none hnext]
      rcases not_and_or.mp hcase with h | h
      · rw [List.take_of_length_le (by simp only [List.length_drop]; omega)]
      · have hpage : (L.drop k).take limit = [] := not_not.mp h
        rcases List.take_eq_nil_iff.mp hpage with h' | h'
        · omega
        · rw [h']
          simp

/-- C3 (pagination): for a fixed record set with duplicate-free IDs and
non-zero creation times, and any filter and positive page limit,
concatenating all pages obtained by following next cursors from the empty
cursor yields exactly the sorted matching snapshot: every matching record
exactly once (a permutation of the filtered records), in ascending
(timestamp, ID) order with ID as the tie-break (sorted, and even strictly
increasing); moreover any call returns a next cursor only when further
matching elements remain beyond the returned page. -/
theorem listTransactions_pagination (items : List Transaction) (fromA : String)
    (limit : Nat) (hlim : 1 ≤ limit)
    (hids : (items.map Transaction.ID).Nodup)
    (hpos : ∀ t ∈ items, 1 ≤ t.At) :
    collectPages items fromA limit (items.length + 1) zeroCursor =
      sortedMatching items fromA ∧
    List.Perm (collectPages items fromA limit (items.length + 1) zeroCursor)
      (items.filter (matchesFrom fromA)) ∧
    (collectPages items fromA limit (items.length + 1) zeroCursor).Sorted trLE ∧
    (collectPages items fromA limit (items.length + 1) zeroCursor).Pairwise trLT ∧
    ∀ cur page nc,
      listTransactions items fromA cur limit = .ok (page, some nc) →
      startIndex (sortedMatching items fromA) cur + page.length <
        (sortedMatching items fromA).length := by
  have hperm : List.Perm (sortedMatching items fromA)
      (items.filter (matchesFrom fromA)) := List.perm_insertionSort trLE _
  have hsort : (sortedMatching items fromA).Sorted trLE :=
    List.sorted_insertionSort trLE _
  have hnodupID : ((sortedMatching items fromA).map Transaction.ID).Nodup := by
    have h1 : ((items.filter (matchesFrom fromA)).map Transaction.ID).Nodup :=
      hids.sublist ((List.filter_sublist _).map _)
    exact ((hperm.map _).nodup_iff).mpr h1
  have hpw : (sortedMatching items fromA).Pairwise trLT := by
    have hne : (sortedMatching items fromA).Pairwise
        (fun a b => a.ID ≠ b.ID) := List.pairwise_map.mp hnodupID
    exact (hsort.and hne).imp (fun h => trLT_of_trLE_ne h.1 h.2)
  have hposL : ∀ t ∈ sortedMatching items fromA, 1 ≤ t.At := by
    intro t ht
    have hmem : t ∈ items.filter (matchesFrom fromA) := by
      simpa [sortedMatching] using ht
    exact hpos t (List.mem_of_mem_filter hmem)
  have hmain : collectPages items fromA limit (items.length + 1) zeroCursor =
      sortedMatching items fromA := by
    have hlen : (sortedMatching items fromA).length ≤ items.length := by
      rw [hperm.length_eq]
      exact List.length_filter_le _ _
    have h := collectPages_drop items fromA limit hlim hpw hposL
      (items.length + 1) 0 zeroCursor (Or.inl rfl)
      (by simp [startIndex, zeroCursor]) (by omega)
    simpa using h
  refine ⟨hmain, ?_, ?_, ?_, ?_⟩
  · rw [hmain]; exact hperm
  · rw [hmain]; exact hsort
  · rw [hmain]; exact hpw
  · intro cur page nc hok
    by_cases hcond : cur.FA ≠ "" ∧ cur.FA ≠ fromA
    · have herr := listTransactions_mismatch items fromA cur limit hcond
      rw [herr] at hok
      exact Except.noConfusion hok
    · have hfa : cur.FA = "" ∨ cur.FA = fromA := by
        rcases not_and_or.mp hcond with h | h
        · exact Or.inl (not_not.mp h)
        · exact Or.inr (not_not.mp h)
      rw [listTransactions_ok items fromA cur limit hfa] at hok
      set L := sortedMatching items fromA with hL
      set k := startIndex L cur with hk
      by_cases hc2 : k + limit < L.length ∧ (L.drop k).take limit ≠ []
      · rw [if_pos hc2] at hok
        have hpage : page = (L.drop k).take limit := by
          cases hgl : ((L.drop k).take limit).getLast? with
          | none => rw [hgl] at hok; simp at hok
          | some last =>
            rw [hgl] at hok
            simp only [Except.ok.injEq, Prod.mk.injEq] at hok
            exact hok.1.symm
        have hlenp : page.length = limit := by
          rw [hpage]
          simp only [List.length_take, List.length_drop]
          omega
        omega
      · rw [if_neg hc2] at hok
        simp at hok

/-- Concrete records for the pagination witness (distinct IDs, distinct
non-zero timestamps, mixed from-accounts). -/
def tW1 : Transaction := ⟨"a1", "A1", "A2", .finite 1, 1, .pending⟩

/-- Second pagination-witness record. -/
def tW2 : Transaction := ⟨"a2", "A9", "A2", .finite 2, 3, .pending⟩

/-- Third pagination-witness record. -/
def tW3 : Transaction := ⟨"a3", "A1", "A2", .finite 3, 2, .pending⟩

/-- Witness for C3: on a concrete three-record store with page limit 2,
walking all pages from the empty cursor returns the whole sorted dataset. -/
theorem listTransactions_pagination_witness :
    collectPages [tW1, tW2, tW3] "" 2 ([tW1, tW2, tW3].length + 1) zeroCursor =
      sortedMatching [tW1, tW2, tW3] "" :=
  (listTransactions_pagination [tW1, tW2, tW3] "" 2 (by decide) (by decide)
    (by decide)).1

/-- Counterexample to C9 as stated: a cursor issued under the empty (absent)
filter (`FA = ""`, as `encodeCursor` records when `from` is empty) and
replayed against the non-empty filter `"A1"` is NOT rejected — the request
succeeds and returns a page. -/
theorem listTransactions_filter_counterexample :
    listTransactions [⟨"a", "A1", "A2", .finite 1, 1, .pending⟩] "A1"
      ⟨1, "a", ""⟩ 1 = .ok ([], none) := by rfl

/-- C9 amended: `listTransactions` rejects a request with
`cursor does not match query` exactly when the cursor carries a NON-EMPTY
filter value differing from the request's filter; a cursor issued under the
empty filter passes the check against any filter. -/
theorem listTransactions_filter_check (items : List Transaction)
    (fromA : String) (cur : trCursor) (limit : Nat) :
    listTransactions items fromA cur limit = .error "cursor does not match query"
      ↔ (cur.FA ≠ "" ∧ cur.FA ≠ fromA) := by
  unfold listTransactions
  split_ifs with h
  · simp [h]
  · simp [h]

/-! ### Cursor codec (`encodeCursor` / `decodeCursor`)

Go strings are byte sequences, so this layer models them as `List Nat` with
every byte below 256.  `b64encode`/`b64decode` model
`base64.RawURLEncoding.EncodeToString`/`DecodeString` (unpadded URL-safe
base64); `marshalCursor`/`unmarshalCursor` model `json.Marshal`/`Unmarshal`
of the `trCursor` struct with its field tags `at`, `id`, `fa` (string
escaping is modelled for the two structural characters `"` and `\`, and the
timestamp as a quoted decimal, which preserves exactly the round-trip
behaviour of the library pair). -/

/-- The base64url alphabet: the byte for a 6-bit value. -/
def sextetChar (n : Nat) : Nat :=
  if n < 26 then 65 + n
  else if n < 52 then 97 + (n - 26)
  else if n < 62 then 48 + (n - 52)
  else if n = 62 then 45
  else 95

/-- The 6-bit value of an alphabet byte, `none` outside the alphabet. -/
def sextetVal (b : Nat) : Option Nat :=
  if 65 ≤ b ∧ b ≤ 90 then some (b - 65)
  else if 97 ≤ b ∧ b ≤ 122 then some (26 + (b - 97))
  else if 48 ≤ b ∧ b ≤ 57 then some (52 + (b - 48))
  else if b = 45 then some 62
  else if b = 95 then some 63
  else none

theorem sextetVal_sextetChar : ∀ n < 64, sextetVal (sextetChar n) = some n := by
  decide

/-- Unpadded base64url encoding of a byte sequence
(`base64.RawURLEncoding.EncodeToString`). -/
def b64encode : List Nat → List Nat
  | [] => []
  | [b1] => [sextetChar (b1 / 4), sextetChar (b1 % 4 * 16)]
  | [b1, b2] =>
    [sextetChar (b1 / 4), sextetChar (b1 % 4 * 16 + b2 / 16),
      sextetChar (b2 % 16 * 4)]
  | b1 :: b2 :: b3 :: rest =>
    sextetChar (b1 / 4) :: sextetChar (b1 % 4 * 16 + b2 / 16) ::
    sextetChar (b2 % 16 * 4 + b3 / 64) :: sextetChar (b3 % 64) ::
    b64encode rest

/-- Unpadded base64url decoding (`base64.RawURLEncoding.DecodeString`):
`none` on a non-alphabet byte or an impossible length. -/
def b64decode : List Nat → Option (List Nat)
  | [] => some []
  | [_] => none
  | [c1, c2] => do
    let s1 ← sextetVal c1
    let s2 ← sextetVal c2
    pure [s1 * 4 + s2 / 16]
  | [c1, c2, c3] => do
    let s1 ← sextetVal c1
    let s2 ← sextetVal c2
    let s3 ← sextetVal c3
    pure [s1 * 4 + s2 / 16, s2 % 16 * 16 + s3 / 4]
  | c1 :: c2 :: c3 :: c4 :: rest => do
    let s1 ← sextetVal c1
    let s2 ← sextetVal c2
    let s3 ← sextetVal c3
    let s4 ← sextetVal c4
    let tail ← b64decode rest
    pure ((s1 * 4 + s2 / 16) :: (s2 % 16 * 16 + s3 / 4) :: (s3 % 4 * 64 + s4) :: tail)

/-- Base64 round-trip: decoding an encoded byte sequence restores it. -/
theorem b64decode_b64encode : ∀ bs : List Nat, (∀ b ∈ bs, b < 256) →
    b64decode (b64encode bs) = some bs
  | [], _ => rfl
  | [b1], h => by
    have hb1 : b1 < 256 := h b1 (by simp)
    have h1 := sextetVal_sextetChar (b1 / 4) (by omega)
    have h2 := sextetVal_sextetChar (b1 % 4 * 16) (by omega)
    simp [b64encode, b64decode, h1, h2]
    omega
  | [b1, b2], h => by
    have hb1 : b1 < 256 := h b1 (by simp)
    have hb2 : b2 < 256 := h b2 (by simp)
    have h1 := sextetVal_sextetChar (b1 / 4) (by omega)
    have h2 := sextetVal_sextetChar (b1 % 4 * 16 + b2 / 16) (by omega)
    have h3 := sextetVal_sextetChar (b2 % 16 * 4) (by omega)
    simp [b64encode, b64decode, h1, h2, h3]
    constructor <;> omega
  | b1 :: b2 :: b3 :: rest, h => by
    have hb1 : b1 < 256 := h b1 (by simp)
    have hb2 : b2 < 256 := h b2 (by simp)
    have hb3 : b3 < 256 := h b3 (by simp)
    have ih := b64decode_b64encode rest (fun b hb => h b (by simp [hb]))
    have h1 := sextetVal_sextetChar (b1 / 4) (by omega)
    have h2 := sextetVal_sextetChar (b1 % 4 * 16 + b2 / 16) (by omega)
    have h3 := sextetVal_sextetChar (b2 % 16 * 4 + b3 / 64) (by omega)
    have h4 := sextetVal_sextetChar (b3 % 64) (by omega)
    cases rest with
    | nil =>
      simp [b64encode, b64decode, h1, h2, h3, h4]
      refine ⟨by omega, by omega, by omega⟩
    | cons b4 rest' =>
      simp only [b64encode] at ih ⊢
      simp [b64decode, h1, h2, h3, h4, ih]
      refine ⟨by omega, by omega, by omega⟩

/-- JSON string escaping of the structural bytes `"` (34) and `\` (92). -/
def jsonEscape : List Nat → List Nat
  | [] => []
  | b :: rest =>
    if b = 34 then 92 :: 34 :: jsonEscape rest
    else if b = 92 then 92 :: 92 :: jsonEscape rest
    else b :: jsonEscape rest

/-- JSON string scanner: reads the escaped content up to the next unescaped
closing quote, returning the unescaped content and the remaining input. -/
def jsonUnstr : List Nat → Option (List Nat × List Nat)
  | [] => none
  | b :: rest =>
    if b = 34 then some ([], rest)
    else if b = 92 then
      match rest with
      | [] => none
      | d :: rest2 =>
        if d = 34 ∨ d = 92 then
          (jsonUnstr rest2).map (fun p => (d :: p.1, p.2))
        else none
    else (jsonUnstr rest).map (fun p => (b :: p.1, p.2))
termination_by l => l.length
decreasing_by
  · simp
    omega
  · simp

/-- Scanning an escaped string up to its closing quote recovers it. -/
theorem jsonUnstr_jsonEscape (s : List Nat) (rest : List Nat) :
    jsonUnstr (jsonEscape s ++ 34 :: rest) = some (s, rest) := by
  induction s with
  | nil =>
    simp only [jsonEscape, List.nil_append]
    unfold jsonUnstr
    simp
  | cons b s' ih =>
    by_cases h34 : b = 34
    · subst h34
      simp only [jsonEscape, if_pos rfl, List.cons_append]
      unfold jsonUnstr
      simp [ih]
    · by_cases h92 : b = 92
      · subst h92
        simp only [jsonEscape, if_neg (by decide : ¬(92 = 34)), if_pos rfl,
          List.cons_append]
        unfold jsonUnstr
        simp [ih]
      · simp only [jsonEscape, if_neg h34, if_neg h92, List.cons_append]
        unfold jsonUnstr
        simp [h34, h92, ih]

/-- Escaping is the identity on byte sequences free of `"` and `\`. -/
theorem jsonEscape_eq_self {l : List Nat} (h : ∀ b ∈ l, b ≠ 34 ∧ b ≠ 92) :
    jsonEscape l = l := by
  induction l with
  | nil => rfl
  | cons b rest ih =>
    have hb := h b (by simp)
    simp only [jsonEscape, if_neg hb.1, if_neg hb.2]
    rw [ih (fun x hx => h x (by simp [hx]))]

/-- Every byte of an escaped sequence is a byte of the original or `\`. -/
theorem jsonEscape_mem {l : List Nat} {b : Nat} (h : b ∈ jsonEscape l) :
    b ∈ l ∨ b = 92 := by
  induction l with
  | nil => simp [jsonEscape] at h
  | cons x rest ih =>
    unfold jsonEscape at h
    split_ifs at h with h34 h92
    · simp only [List.mem_cons] at h
      rcases h with h | h | h
      · exact Or.inr h
      · subst h34
        exact Or.inl (by simp [h])
      · rcases ih h with h' | h'
        · exact Or.inl (List.mem_cons_of_mem _ h')
        · exact Or.inr h'
    · simp only [List.mem_cons] at h
      rcases h with h | h | h
      · exact Or.inr h
      · exact Or.inr h
      · rcases ih h with h' | h'
        · exact Or.inl (List.mem_cons_of_mem _ h')
        · exact Or.inr h'
    · simp only [List.mem_cons] at h
      rcases h with h | h
      · exact Or.inl (by simp [h])
      · rcases ih h with h' | h'
        · exact Or.inl (List.mem_cons_of_mem _ h')
        · exact Or.inr h'

/-- Decimal rendering of the timestamp, as `json.Marshal` writes it inside
the quoted time string (modelled as the plain decimal of the `Nat` clock). -/
def printNatBytes (n : Nat) : List Nat :=
  if n = 0 then [48] else ((Nat.digits 10 n).reverse).map (fun d => 48 + d)

/-- Decimal parsing: one or more ASCII digits. -/
def digitsToNat (bs : List Nat) : Option Nat :=
  if bs ≠ [] ∧ bs.all (fun b => decide (48 ≤ b) && decide (b ≤ 57)) then
    some (Nat.ofDigits 10 ((bs.map (fun b => b - 48)).reverse))
  else none

/-- Every byte of a decimal rendering is an ASCII digit. -/
theorem printNatBytes_bounds (n : Nat) :
    ∀ b ∈ printNatBytes n, 48 ≤ b ∧ b ≤ 57 := by
  intro b hb
  unfold printNatBytes at hb
  by_cases h : n = 0
  · rw [if_pos h] at hb
    simp at hb
    omega
  · rw [if_neg h] at hb
    simp only [List.mem_map, List.mem_reverse] at hb
    obtain ⟨d, hd, hbd⟩ := hb
    have := Nat.digits_lt_base (by norm_num) hd
    omega

/-- Decimal round-trip. -/
theorem digitsToNat_printNatBytes (n : Nat) :
    digitsToNat (printNatBytes n) = some n := by
  by_cases h : n = 0
  · subst h
    decide
  · unfold digitsToNat
    have hcond : printNatBytes n ≠ [] ∧
        (printNatBytes n).all (fun b => decide (48 ≤ b) && decide (b ≤ 57)) := by
      constructor
      · unfold printNatBytes
        rw [if_neg h]
        simp [Nat.digits_ne_nil_iff_ne_zero.mpr h]
      · rw [List.all_eq_true]
        intro b hb
        have := printNatBytes_bounds n b hb
        simp only [Bool.and_eq_true, decide_eq_true_eq]
        omega
    rw [if_pos hcond]
    congr 1
    unfold printNatBytes
    rw [if_neg h]
    rw [List.map_map]
    have hmap : (Nat.digits 10 n).reverse.map
        ((fun b => b - 48) ∘ (fun d => 48 + d)) =
        (Nat.digits 10 n).reverse := by
      have hpt : ∀ a ∈ (Nat.digits 10 n).reverse,
          ((fun b => b - 48) ∘ (fun d => 48 + d)) a = id a := by
        intro a ha
        simp
      rw [List.map_congr_left hpt, List.map_id]
    rw [hmap, List.reverse_reverse, Nat.ofDigits_digits]

/-- The cursor struct at the wire level: `At` (the `at` field, the nanosecond
clock of the time value), `ID` and `FA` as byte strings. -/
structure cursorB where
  At : Nat
  ID : List Nat
  FA : List Nat
deriving DecidableEq, Repr

/-- ASCII literal as bytes. -/
def lit (s : String) : List Nat := s.toList.map Char.toNat

/-- Consume an expected literal prefix. -/
def stripPrefixB : List Nat → List Nat → Option (List Nat)
  | [], s => some s
  | _ :: _, [] => none
  | p :: pr, b :: rest => if b = p then stripPrefixB pr rest else none

/-- Stripping a literal off itself succeeds and leaves the remainder. -/
theorem stripPrefixB_append (pre s : List Nat) :
    stripPrefixB pre (pre ++ s) = some s := by
  induction pre with
  | nil => rfl
  | cons p pr ih => simp [stripPrefixB, ih]

/-- `json.Marshal` of the cursor struct: the object
`{"at":"<decimal>","id":"<escaped>","fa":"<escaped>"}` as bytes (34 is the
quote). -/
def marshalCursor (c : cursorB) : List Nat :=
  lit "\x7b\"at\":\"" ++ printNatBytes c.At ++ [34] ++
  lit ",\"id\":\"" ++ jsonEscape c.ID ++ [34] ++
  lit ",\"fa\":\"" ++ jsonEscape c.FA ++ [34] ++ lit "\x7d"

/-- `json.Unmarshal` into the cursor struct: strict parse of the object
layout written by `marshalCursor`. -/
def unmarshalCursor (bs : List Nat) : Option cursorB := do
  let r1 ← stripPrefixB (lit "\x7b\"at\":\"") bs
  let p1 ← jsonUnstr r1
  let atv ← digitsToNat p1.1
  let r2 ← stripPrefixB (lit ",\"id\":\"") p1.2
  let p2 ← jsonUnstr r2
  let r3 ← stripPrefixB (lit ",\"fa\":\"") p2.2
  let p3 ← jsonUnstr r3
  let r4 ← stripPrefixB (lit "\x7d") p3.2
  if r4 = [] then some ⟨atv, p2.1, p3.1⟩ else none

/-- Marshalling round-trip on the cursor struct. -/
theorem unmarshalCursor_marshalCursor (c : cursorB) :
    unmarshalCursor (marshalCursor c) = some c := by
  have hdig : jsonEscape (printNatBytes c.At) = printNatBytes c.At :=
    jsonEscape_eq_self (fun b hb => by
      have := printNatBytes_bounds c.At b hb
      omega)
  have e1 : marshalCursor c =
      lit "\x7b\"at\":\"" ++ (jsonEscape (printNatBytes c.At) ++ 34 ::
        (lit ",\"id\":\"" ++ (jsonEscape c.ID ++ 34 ::
          (lit ",\"fa\":\"" ++ (jsonEscape c.FA ++ 34 :: lit "\x7d"))))) := by
    rw [hdig]
    simp [marshalCursor, List.append_assoc]
  rw [e1]
  unfold unmarshalCursor
  have hlast : stripPrefixB (lit "\x7d") (lit "\x7d") = some [] := by
    have h0 := stripPrefixB_append (lit "\x7d") []
    simpa using h0
  simp [stripPrefixB_append, jsonUnstr_jsonEscape, digitsToNat_printNatBytes,
    hlast]

/-- White-space bytes, as `strings.TrimSpace` treats them in the ASCII
range. -/
def isSpaceByte (b : Nat) : Bool :=
  b = 32 || b = 9 || b = 10 || b = 13 || b = 11 || b = 12

/-- `strings.TrimSpace` on byte strings. -/
def trimSpaceB (bs : List Nat) : List Nat :=
  ((bs.dropWhile isSpaceByte).reverse.dropWhile isSpaceByte).reverse

/-- `dropWhile` is the identity when no element satisfies the predicate. -/
theorem dropWhile_of_all_false {p : Nat → Bool} :
    ∀ l : List Nat, (∀ b ∈ l, p b = false) → List.dropWhile p l = l := by
  intro l h
  cases l with
  | nil => rfl
  | cons x xs =>
    rw [List.dropWhile_cons, if_neg (by simp [h x (by simp)])]

/-- Trimming is the identity on space-free byte strings. -/
theorem trimSpaceB_of_no_space {l : List Nat}
    (h : ∀ b ∈ l, isSpaceByte b = false) : trimSpaceB l = l := by
  unfold trimSpaceB
  rw [dropWhile_of_all_false l h,
    dropWhile_of_all_false l.reverse (fun b hb => h b (by simpa using hb)),
    List.reverse_reverse]

theorem sextetChar_not_space : ∀ n < 64, isSpaceByte (sextetChar n) = false := by
  decide

/-- Base64 output never contains white space. -/
theorem b64encode_not_space : ∀ bs : List Nat, (∀ b ∈ bs, b < 256) →
    ∀ cb ∈ b64encode bs, isSpaceByte cb = false
  | [], _ => by simp [b64encode]
  | [b1], h => by
    have hb1 : b1 < 256 := h b1 (by simp)
    intro cb hcb
    simp only [b64encode, List.mem_cons, List.not_mem_nil, or_false] at hcb
    rcases hcb with h' | h' <;>
      (rw [h']; exact sextetChar_not_space _ (by omega))
  | [b1, b2], h => by
    have hb1 : b1 < 256 := h b1 (by simp)
    have hb2 : b2 < 256 := h b2 (by simp)
    intro cb hcb
    simp only [b64encode, List.mem_cons, List.not_mem_nil, or_false] at hcb
    rcases hcb with h' | h' | h' <;>
      (rw [h']; exact sextetChar_not_space _ (by omega))
  | b1 :: b2 :: b3 :: rest, h => by
    have hb1 : b1 < 256 := h b1 (by simp)
    have hb2 : b2 < 256 := h b2 (by simp)
    have hb3 : b3 < 256 := h b3 (by simp)
    have ih := b64encode_not_space rest (fun b hb => h b (by simp [hb]))
    intro cb hcb
    simp only [b64encode, List.mem_cons] at hcb
    rcases hcb with h' | h' | h' | h' | h'
    · rw [h']; exact sextetChar_not_space _ (by omega)
    · rw [h']; exact sextetChar_not_space _ (by omega)
    · rw [h']; exact sextetChar_not_space _ (by omega)
    · rw [h']; exact sextetChar_not_space _ (by omega)
    · exact ih cb h'

/-- Base64 of a non-empty byte sequence is non-empty. -/
theorem b64encode_ne_nil {bs : List Nat} (h : bs ≠ []) : b64encode bs ≠ [] := by
  cases bs with
  | nil => exact absurd rfl h
  | cons b1 t =>
    cases t with
    | nil => simp [b64encode]
    | cons b2 t2 =>
      cases t2 <;> simp [b64encode]

/-- All bytes of a marshalled cursor are bytes (< 256), given byte-valued
`ID` and `FA`. -/
theorem marshalCursor_bytes (c : cursorB) (hID : ∀ b ∈ c.ID, b < 256)
    (hFA : ∀ b ∈ c.FA, b < 256) : ∀ b ∈ marshalCursor c, b < 256 := by
  have hlit1 : ∀ x ∈ lit "\x7b\"at\":\"", x < 256 := by decide
  have hlit2 : ∀ x ∈ lit ",\"id\":\"", x < 256 := by decide
  have hlit3 : ∀ x ∈ lit ",\"fa\":\"", x < 256 := by decide
  have hlit4 : ∀ x ∈ lit "\x7d", x < 256 := by decide
  have h34 : ∀ x ∈ [34], x < 256 := by decide
  have hpn : ∀ x ∈ printNatBytes c.At, x < 256 := by
    intro x hx
    have := printNatBytes_bounds c.At x hx
    omega
  have hesc1 : ∀ x ∈ jsonEscape c.ID, x < 256 := by
    intro x hx
    rcases jsonEscape_mem hx with h' | h'
    · exact hID x h'
    · omega
  have hesc2 : ∀ x ∈ jsonEscape c.FA, x < 256 := by
    intro x hx
    rcases jsonEscape_mem hx with h' | h'
    · exact hFA x h'
    · omega
  unfold marshalCursor
  simp only [List.forall_mem_append]
  exact ⟨⟨⟨⟨⟨⟨⟨⟨⟨hlit1, hpn⟩, h34⟩, hlit2⟩, hesc1⟩, h34⟩, hlit3⟩, hesc2⟩, h34⟩,
    hlit4⟩

/-- A marshalled cursor is non-empty (it opens with `{`). -/
theorem marshalCursor_ne_nil (c : cursorB) : marshalCursor c ≠ [] := by
  simp [marshalCursor, lit]

/-- `encodeCursor` of the source: marshal the cursor struct and base64url it
(`base64.RawURLEncoding.EncodeToString(json.Marshal(c))`). -/
def encodeCursor (c : cursorB) : List Nat := b64encode (marshalCursor c)

/-- `decodeCursor` of the source: the trimmed-empty token is the absent
cursor (zero value, no error); base64 failure is `invalid cursor encoding`;
unmarshal failure is `invalid cursor payload`; a zero time or blank ID is
`invalid cursor fields`. -/
def decodeCursor (s : List Nat) : Except String cursorB :=
  if trimSpaceB s = [] then .ok ⟨0, [], []⟩
  else
    match b64decode s with
    | none => .error "invalid cursor encoding"
    | some b =>
      match unmarshalCursor b with
      | none => .error "invalid cursor payload"
      | some c =>
        if c.At = 0 ∨ trimSpaceB c.ID = [] then .error "invalid cursor fields"
        else .ok c

/-- C10: on every valid cursor — non-zero timestamp, non-blank ID, byte-valued
fields — decoding the encoded token succeeds and returns the cursor itself:
`decodeCursor ∘ encodeCursor` is the identity on valid cursors. -/
theorem decodeCursor_encodeCursor (c : cursorB)
    (hAt : c.At ≠ 0) (hID : trimSpaceB c.ID ≠ [])
    (hIDb : ∀ b ∈ c.ID, b < 256) (hFAb : ∀ b ∈ c.FA, b < 256) :
    decodeCursor (encodeCursor c) = .ok c := by
  have hm : ∀ b ∈ marshalCursor c, b < 256 := marshalCursor_bytes c hIDb hFAb
  have htrim : trimSpaceB (encodeCursor c) = encodeCursor c :=
    trimSpaceB_of_no_space (b64encode_not_space _ hm)
  have hne : encodeCursor c ≠ [] := b64encode_ne_nil (marshalCursor_ne_nil c)
  unfold decodeCursor
  rw [if_neg (by rw [htrim]; exact hne)]
  have hdec : b64decode (encodeCursor c) = some (marshalCursor c) :=
    b64decode_b64encode _ hm
  simp only [hdec, unmarshalCursor_marshalCursor]
  rw [if_neg (by push_neg; exact ⟨hAt, hID⟩)]

/-- Witness for C10 at the concrete cursor (timestamp 1, ID `"a"`, no
filter). -/
theorem decodeCursor_encodeCursor_witness :
    decodeCursor (encodeCursor ⟨1, [97], []⟩) = .ok ⟨1, [97], []⟩ :=
  decodeCursor_encodeCursor ⟨1, [97], []⟩ (by decide) (by decide) (by decide)
    (by decide)

end GoExamples
